import Mathlib

/-!
Shallow embedding of the measurement normalization and deduplication
pipeline of `garmin_weight_uploader.py` (Google Fit → Garmin Connect weight
synchronizer), together with proofs settling the frozen claims about it.

Modelling conventions:
* Python `datetime.date` / `datetime.time` values become `Date` / `Time`
  records of natural numbers.  The Python runtime only ever constructs
  in-range values (month 1–12, day 1–31, hour 0–23, minute/second 0–59,
  microsecond 0–999999).
* Weights are fixed-point: the pipeline rounds every weight to 3 decimal
  places (`round(float(weight), 3)`) and formats it with `"%.3f"`, so a
  weight is modelled as its count of thousandths of a kilogram (`Nat`).
* Fallible operations become `Option`/`Except`; filesystem effects become
  explicit operation traces.
-/

namespace GarminWeightUploader

/-- Calendar date, as Python's `datetime.date`. -/
structure Date where
  year : Nat
  month : Nat
  day : Nat
deriving DecidableEq

/-- Naive wall-clock time of day, as Python's `datetime.time`
(`micro` is the microsecond field). -/
structure Time where
  hour : Nat
  minute : Nat
  second : Nat
  micro : Nat
deriving DecidableEq

/-- Zero-pad a numeral to two digits (as `"%02d"` / `strftime`). -/
def pad2 (n : Nat) : String :=
  if n < 10 then "0" ++ toString n else toString n

/-- Zero-pad a numeral to three digits (the fractional part of `"%.3f"`). -/
def pad3 (n : Nat) : String :=
  if n < 10 then "00" ++ toString n
  else if n < 100 then "0" ++ toString n
  else toString n

/-- Zero-pad a numeral to four digits (the year part of `date.isoformat`). -/
def pad4 (n : Nat) : String :=
  if n < 10 then "000" ++ toString n
  else if n < 100 then "00" ++ toString n
  else if n < 1000 then "0" ++ toString n
  else toString n

/-- `date.isoformat()`: `YYYY-MM-DD`. -/
def dateIso (d : Date) : String :=
  pad4 d.year ++ "-" ++ pad2 d.month ++ "-" ++ pad2 d.day

/-- `time.strftime("%H:%M:%S")`: note that seconds are kept and
microseconds are discarded. -/
def timeHMS (t : Time) : String :=
  pad2 t.hour ++ ":" ++ pad2 t.minute ++ ":" ++ pad2 t.second

/-- `f"{float(weight):.3f}"` on a fixed-point weight in thousandths of a
kilogram. -/
def formatWeight3 (w : Nat) : String :=
  toString (w / 1000) ++ "." ++ pad3 (w % 1000)

/-- `measurement_key(date_value, time_value, weight)`:
`f"{date_value.isoformat()}T{time_str}|{float(weight):.3f}"` with
`time_str = time_value.strftime("%H:%M:%S")`. -/
def measurement_key (date_value : Date) (time_value : Time) (weight : Nat) : String :=
  dateIso date_value ++ "T" ++ timeHMS time_value ++ "|" ++ formatWeight3 weight

/-- One normalised row of the pipeline: the dict
`{"date": d, "time": t, "weight_kg": round(float(weight), 3)}`, with the
rounded weight stored in thousandths of a kilogram. -/
structure Measurement where
  date : Date
  time : Time
  weight_mg : Nat
deriving DecidableEq

/-- The dedup key of a record, as computed at every call site:
`measurement_key(record["date"], record["time"], record["weight_kg"])`. -/
def recordKey (m : Measurement) : String :=
  measurement_key m.date m.time m.weight_mg

/-- The minute truncation of a time of day (seconds and microseconds
discarded), used to state the spec's claimed key granularity. -/
def truncMinute (t : Time) : Nat × Nat :=
  (t.hour, t.minute)

/-! ### `deduplicate_measurements` -/

/-- The loop of `deduplicate_measurements`: walk the records in order with a
`seen` set of keys (modelled as a list of strings), keeping a record exactly
when its key has not been seen. -/
def dedupLoop : List Measurement → List String → List Measurement
  | [], _ => []
  | m :: ms, seen =>
    if recordKey m ∈ seen then dedupLoop ms seen
    else m :: dedupLoop ms (recordKey m :: seen)

/-- `deduplicate_measurements(df)`: remove duplicate measurements based on
date, time and weight (the empty-input early return is the same value). -/
def deduplicate_measurements (ms : List Measurement) : List Measurement :=
  dedupLoop ms []

/-! ### `filter_new_entries` -/

/-- The loop of `filter_new_entries`: keep the records whose key is not in
`uploaded_keys`, counting the skipped ones. -/
def filterNewLoop : List Measurement → List String → List Measurement × Nat
  | [], _ => ([], 0)
  | m :: ms, uploaded =>
    let rest := filterNewLoop ms uploaded
    if recordKey m ∈ uploaded then (rest.1, rest.2 + 1)
    else (m :: rest.1, rest.2)

/-- `filter_new_entries(df, uploaded_keys)`: drop rows already uploaded; an
empty (falsy) key set returns the input unchanged with 0 skipped. -/
def filter_new_entries (ms : List Measurement) (uploaded : List String) :
    List Measurement × Nat :=
  if uploaded.isEmpty then (ms, 0) else filterNewLoop ms uploaded

/-! ### Supporting lemmas for dedup and filter -/

theorem dedupLoop_sublist (ms : List Measurement) :
    ∀ seen, (dedupLoop ms seen).Sublist ms := by
  induction ms with
  | nil => intro seen; simp [dedupLoop]
  | cons m ms ih =>
    intro seen
    by_cases h : recordKey m ∈ seen
    · simpa [dedupLoop, h] using (ih seen).trans (List.sublist_cons_self m ms)
    · simpa [dedupLoop, h] using (ih (recordKey m :: seen)).cons₂ m

theorem dedupLoop_filter (k : String) (ms : List Measurement) :
    ∀ seen, (dedupLoop ms seen).filter (fun m => recordKey m = k)
      = if k ∈ seen then [] else (ms.filter (fun m => recordKey m = k)).take 1 := by
  induction ms with
  | nil => intro seen; by_cases h : k ∈ seen <;> simp [dedupLoop, h]
  | cons m ms ih =>
    intro seen
    by_cases hm : recordKey m ∈ seen
    · rw [dedupLoop, if_pos hm, ih seen]
      by_cases hk : k ∈ seen
      · simp [hk]
      · have hne : ¬ recordKey m = k := fun h => hk (h ▸ hm)
        simp [hk, List.filter_cons, hne]
    · rw [dedupLoop, if_neg hm]
      by_cases hk : recordKey m = k
      · subst hk
        rw [List.filter_cons_of_pos (by simp), ih (recordKey m :: seen),
          if_pos (List.mem_cons_self _ _), if_neg hm,
          List.filter_cons_of_pos (by simp)]
        simp
      · rw [List.filter_cons_of_neg (by simp [hk]), ih (recordKey m :: seen)]
        by_cases hks : k ∈ seen
        · rw [if_pos (List.mem_cons_of_mem _ hks), if_pos hks]
        · have hkc : k ∉ recordKey m :: seen := by
            intro hc
            rcases List.mem_cons.mp hc with h | h
            · exact hk h.symm
            · exact hks h
          rw [if_neg hkc, if_neg hks, List.filter_cons_of_neg (by simp [hk])]

theorem dedupLoop_keys_nodup (ms : List Measurement) :
    ∀ seen, ((dedupLoop ms seen).map recordKey).Nodup ∧
      ∀ k ∈ (dedupLoop ms seen).map recordKey, k ∉ seen := by
  induction ms with
  | nil => intro seen; simp [dedupLoop]
  | cons m ms ih =>
    intro seen
    by_cases h : recordKey m ∈ seen
    · simpa [dedupLoop, h] using ih seen
    · obtain ⟨hnd, hdis⟩ := ih (recordKey m :: seen)
      refine ⟨?_, ?_⟩
      · simp only [dedupLoop, if_neg h, List.map_cons, List.nodup_cons]
        exact ⟨fun hmem => (hdis _ hmem) (List.mem_cons_self _ _), hnd⟩
      · intro k hk
        simp only [dedupLoop, if_neg h, List.map_cons, List.mem_cons] at hk
        rcases hk with rfl | hk
        · exact h
        · exact fun hks => (hdis _ hk) (List.mem_cons_of_mem _ hks)

theorem dedupLoop_length (ms : List Measurement) :
    ∀ seen : List String, (dedupLoop ms seen).length
      = ((ms.map recordKey).toFinset \ seen.toFinset).card := by
  induction ms with
  | nil => intro seen; simp [dedupLoop]
  | cons m ms ih =>
    intro seen
    by_cases h : recordKey m ∈ seen
    · rw [dedupLoop, if_pos h, ih seen]
      congr 1
      rw [List.map_cons, List.toFinset_cons,
        Finset.insert_sdiff_of_mem _ (List.mem_toFinset.mpr h)]
    · rw [dedupLoop, if_neg h]
      simp only [List.length_cons, ih (recordKey m :: seen), List.map_cons,
        List.toFinset_cons]
      have hnotT : recordKey m ∉ seen.toFinset := fun hc => h (List.mem_toFinset.mp hc)
      rw [Finset.insert_sdiff_of_not_mem _ hnotT, Finset.sdiff_insert]
      by_cases hS : recordKey m ∈ (ms.map recordKey).toFinset \ seen.toFinset
      · rw [Finset.card_insert_of_mem hS, Finset.card_erase_of_mem hS]
        have : 0 < ((ms.map recordKey).toFinset \ seen.toFinset).card :=
          Finset.card_pos.mpr ⟨_, hS⟩
        omega
      · rw [Finset.card_insert_of_not_mem hS, Finset.erase_eq_of_not_mem hS]

theorem filterNewLoop_spec (ms : List Measurement) (uploaded : List String) :
    (filterNewLoop ms uploaded).1 = ms.filter (fun m => recordKey m ∉ uploaded) ∧
    (filterNewLoop ms uploaded).2 = ms.countP (fun m => recordKey m ∈ uploaded) := by
  induction ms with
  | nil => simp [filterNewLoop]
  | cons m ms ih =>
    by_cases h : recordKey m ∈ uploaded
    · simp [filterNewLoop, h, List.filter_cons, List.countP_cons, ih.1, ih.2]
    · simp [filterNewLoop, h, List.filter_cons, List.countP_cons, ih.1, ih.2]

/-! ### `prune_state_keys` -/

/-- Read two decimal digit characters. -/
def digits2 (c1 c2 : Char) : Option Nat :=
  if c1.isDigit && c2.isDigit then
    some ((c1.toNat - 48) * 10 + (c2.toNat - 48))
  else none

/-- Read four decimal digit characters. -/
def digits4 (c1 c2 c3 c4 : Char) : Option Nat :=
  match digits2 c1 c2, digits2 c3 c4 with
  | some hi, some lo => some (hi * 100 + lo)
  | _, _ => none

/-- Lexicographic numeric encoding of a calendar date (fields in range:
month ≤ 12 < 13, day ≤ 31 < 32). -/
def dateCode (y mo d : Nat) : Nat :=
  (y * 13 + mo) * 32 + d

/-- Numeric encoding of a `datetime`, ordered lexicographically by
(date, time-of-day). -/
def dtCode (y mo d h mi s : Nat) : Nat :=
  dateCode y mo d * 86400 + (h * 3600 + mi * 60 + s)

/-- Model of `datetime.fromisoformat` restricted to the two shapes that
occur in state keys (`YYYY-MM-DD` and `YYYY-MM-DDTHH:MM:SS`, the shapes
`measurement_key` produces); any other string is a parse failure, mirroring
the `except ValueError` branch.  A successful parse has year ≥ 1, so its
code is strictly above the failure code 0 (`datetime.min` sorts first). -/
def parseIsoCode (s : String) : Option Nat :=
  match s.data with
  | [a1, a2, a3, a4, '-', b1, b2, '-', c1, c2] =>
    match digits4 a1 a2 a3 a4, digits2 b1 b2, digits2 c1 c2 with
    | some y, some mo, some dd =>
      if 1 ≤ y ∧ 1 ≤ mo ∧ mo ≤ 12 ∧ 1 ≤ dd ∧ dd ≤ 31 then
        some (dtCode y mo dd 0 0 0)
      else none
    | _, _, _ => none
  | [a1, a2, a3, a4, '-', b1, b2, '-', c1, c2, 'T', h1, h2, ':', i1, i2, ':', s1, s2] =>
    match digits4 a1 a2 a3 a4, digits2 b1 b2, digits2 c1 c2,
        digits2 h1 h2, digits2 i1 i2, digits2 s1 s2 with
    | some y, some mo, some dd, some h, some mi, some ss =>
      if 1 ≤ y ∧ 1 ≤ mo ∧ mo ≤ 12 ∧ 1 ≤ dd ∧ dd ≤ 31 ∧ h ≤ 23 ∧ mi ≤ 59 ∧ ss ≤ 59 then
        some (dtCode y mo dd h mi ss)
      else none
    | _, _, _, _, _, _ => none
  | _ => none

/-- `item.partition("|")[0]`: the part of a key before the first `|`
(the whole string when no `|` occurs). -/
def dtPart (s : String) : String :=
  String.mk (s.data.takeWhile (fun c => c ≠ '|'))

/-- `sort_key(item)`: the embedded instant of a key; `datetime.min`
(modelled as the minimal code 0) when it cannot be parsed back out. -/
def sortKeyOf (item : String) : Nat :=
  match parseIsoCode (dtPart item) with
  | some n => n
  | none => 0

/-- The comparison `sorted(unique_keys, key=sort_key)` sorts by. -/
def keyLe (a b : String) : Prop :=
  sortKeyOf a ≤ sortKeyOf b

instance : DecidableRel keyLe := fun _ _ => Nat.decLe _ _

instance : IsTotal String keyLe := ⟨fun _ _ => Nat.le_total _ _⟩

instance : IsTrans String keyLe := ⟨fun _ _ _ => Nat.le_trans⟩

/-- `STATE_MAX_ENTRIES`. -/
def STATE_MAX_ENTRIES : Nat := 512

/-- `prune_state_keys(keys, limit)`: drop falsy (empty) keys, collapse
duplicates (Python builds a set; equal-sort-code iteration order is
unspecified there, the model fixes one), sort ascending by the embedded
instant, and when more than `limit` keys remain keep the trailing `limit`
slice `ordered[-limit:]` — which for `limit = 0` is the whole list. -/
def prune_state_keys (keys : List String) (limit : Nat) : List String :=
  let uniq := (keys.filter (fun s => s ≠ "")).dedup
  let ordered := List.insertionSort keyLe uniq
  if ordered.length > limit then
    if limit = 0 then ordered else ordered.drop (ordered.length - limit)
  else ordered

/-- The sorted duplicate-free key list `prune_state_keys` slices from. -/
def pruneSorted (keys : List String) : List String :=
  List.insertionSort keyLe ((keys.filter (fun s => s ≠ "")).dedup)

theorem prune_eq_drop (keys : List String) (limit : Nat) :
    ∃ n, prune_state_keys keys limit = (pruneSorted keys).drop n := by
  unfold prune_state_keys
  by_cases h1 :
      (List.insertionSort keyLe ((keys.filter (fun s => s ≠ "")).dedup)).length > limit
  · by_cases h2 : limit = 0
    · refine ⟨0, ?_⟩
      rw [if_pos h1, if_pos h2, List.drop_zero]
      rfl
    · refine ⟨(List.insertionSort keyLe
        ((keys.filter (fun s => s ≠ "")).dedup)).length - limit, ?_⟩
      rw [if_pos h1, if_neg h2]
      rfl
  · refine ⟨0, ?_⟩
    rw [if_neg h1, List.drop_zero]
    rfl

theorem pruneSorted_sorted (keys : List String) :
    List.Sorted keyLe (pruneSorted keys) :=
  List.sorted_insertionSort keyLe _

theorem pruneSorted_nodup (keys : List String) :
    (pruneSorted keys).Nodup := by
  unfold pruneSorted
  exact ((List.perm_insertionSort keyLe _).nodup_iff).mpr (List.nodup_dedup _)

theorem pruneSorted_mem {keys : List String} {k : String} (h : k ∈ pruneSorted keys) :
    k ≠ "" ∧ k ∈ keys := by
  unfold pruneSorted at h
  have h1 : k ∈ (keys.filter (fun s => s ≠ "")).dedup :=
    (List.perm_insertionSort keyLe _).mem_iff.mp h
  have h2 := List.mem_dedup.mp h1
  have h3 := List.mem_filter.mp h2
  exact ⟨by simpa using h3.2, h3.1⟩

theorem mem_pruneSorted {keys : List String} {k : String}
    (hk : k ∈ keys) (hne : k ≠ "") : k ∈ pruneSorted keys := by
  unfold pruneSorted
  refine (List.perm_insertionSort keyLe _).mem_iff.mpr ?_
  exact List.mem_dedup.mpr (List.mem_filter.mpr ⟨hk, by simpa using hne⟩)

/-! ### State persistence: `load_uploaded_keys` / `save_uploaded_keys` -/

/-- JSON values (numbers restricted to integers: a state payload only
carries the integer `version`, strings, lists and objects). -/
inductive Json where
  | null : Json
  | bool : Bool → Json
  | num : Int → Json
  | str : String → Json
  | arr : List Json → Json
  | obj : List (String × Json) → Json

/-- Python truthiness of a decoded JSON value. -/
def pyTruthy : Json → Bool
  | .null => false
  | .bool b => b
  | .num n => n != 0
  | .str s => s != ""
  | .arr xs => !xs.isEmpty
  | .obj fs => !fs.isEmpty

/-- `dict.get(k)` on a decoded JSON object (`json.loads` keeps one binding
per key, so first-match association lookup is faithful). -/
def jsonGet (fs : List (String × Json)) (k : String) : Option Json :=
  match fs with
  | [] => none
  | (k', v) :: rest => if k' = k then some v else jsonGet rest k

/-- Iterating a decoded JSON value as Python iterates the `keys` object: a
list yields its elements, a dict yields its key strings.  Other truthy
shapes would raise `TypeError` in Python and never occur in state files,
so the model yields nothing for them. -/
def jsonElems : Json → List Json
  | .arr xs => xs
  | .obj fs => fs.map (fun f => Json.str f.1)
  | _ => []

/-- Python `str()` on a decoded JSON scalar (container renderings
abbreviated; state keys are strings, where `str` is the identity). -/
def pyStr : Json → String
  | .null => "None"
  | .bool true => "True"
  | .bool false => "False"
  | .num n => toString n
  | .str s => s
  | .arr _ => "[...]"
  | .obj _ => "\x7b...\x7d"

/-- Outcomes of `state_path.read_text` plus `json.loads`: the file may be
missing (`FileNotFoundError`), its text may fail to decode
(`json.JSONDecodeError`), or a JSON value is decoded. -/
inductive ReadResult where
  | missing : ReadResult
  | malformed : ReadResult
  | parsed : Json → ReadResult

/-- `load_uploaded_keys(state_path)`: the returned key set (a Python
`set`, modelled as a duplicate-free list) paired with whether the
corrupt-state warning was printed.  Missing file ⇒ empty set; malformed
JSON ⇒ empty set plus warning; a decoded dict yields
`data.get("uploaded_keys") or data.get("keys") or []`, a decoded list
yields itself, anything else yields `[]`. -/
def load_uploaded_keys : ReadResult → List String × Bool
  | .missing => ([], false)
  | .malformed => ([], true)
  | .parsed data =>
    let keysVal : Json :=
      match data with
      | .obj fs =>
        let v1 := (jsonGet fs "uploaded_keys").getD .null
        let v2 := (jsonGet fs "keys").getD .null
        if pyTruthy v1 then v1 else if pyTruthy v2 then v2 else .arr []
      | .arr xs => .arr xs
      | _ => .arr []
    (((jsonElems keysVal).map pyStr).dedup, false)

/-- Filesystem effects `save_uploaded_keys` can emit, in program order.
(`renameFile` is never emitted by the code; it exists so that atomic
temp-file-plus-rename traces are expressible.) -/
inductive FsOp where
  | mkdirParents : String → FsOp
  | writeText : String → String → FsOp
  | renameFile : String → String → FsOp
deriving DecidableEq

/-- `STATE_VERSION`. -/
def STATE_VERSION : Nat := 1

/-- Render a list of key strings as a JSON array (quoting simplified: keys
produced by `measurement_key` contain no characters needing escapes). -/
def renderStrList : List String → String
  | [] => "[]"
  | k :: ks => "[\"" ++ k ++ String.join (ks.map (fun s => "\", \"" ++ s)) ++ "\"]"

/-- The serialized payload
`json.dumps(\x7b"version", "saved_at", "uploaded_keys"\x7d)` (whitespace
differs from `indent=2`; no claim depends on the exact bytes). -/
def renderStatePayload (savedAt : String) (ks : List String) : String :=
  "\x7b\"version\": " ++ toString STATE_VERSION ++ ", \"saved_at\": \"" ++ savedAt
    ++ "\", \"uploaded_keys\": " ++ renderStrList ks ++ "\x7d"

/-- `save_uploaded_keys(state_path, keys)` as its trace of filesystem
operations: `state_path.parent.mkdir(parents=True, exist_ok=True)`
followed by one direct `state_path.write_text(...)` of the payload, whose
key list is pruned to `STATE_MAX_ENTRIES` (`saved_at` is the wall-clock
string passed in). -/
def save_uploaded_keys (savedAt : String) (parentDir filePath : String)
    (keys : List String) : List FsOp :=
  [ .mkdirParents parentDir,
    .writeText filePath
      (renderStatePayload savedAt (prune_state_keys keys STATE_MAX_ENTRIES)) ]

/-- Following the spec's words ("write atomically (temp file + rename, or
equivalent)"): in a trace model, an atomic save never writes the final
path directly and installs content by renaming a temporary file onto the
final path. -/
def atomicWriteSpec (finalPath : String) (ops : List FsOp) : Prop :=
  (∀ c, FsOp.writeText finalPath c ∉ ops) ∧
  ∃ tmp, tmp ≠ finalPath ∧ FsOp.renameFile tmp finalPath ∈ ops

/-! ### `upload_measurements` -/

/-- Run-state of the upload loop: success/failure counters, the list of
keys recorded as uploaded, and how many network calls (`api.add_weigh_in`)
have been made — the call counter indexes the outcome oracle so attempt
counts are observable. -/
structure UploadState where
  succ : Nat
  fail : Nat
  uploaded : List String
  calls : Nat
deriving DecidableEq

/-- One iteration of the `upload_measurements` loop.  `apiOk i` says
whether the `i`-th network call returns without raising; an exception is
caught, counted as a failure, and the loop continues with the next record.
In dry-run mode the record counts as a success and no call is made. -/
def uploadStep (apiOk : Nat → Bool) (dryRun : Bool) (st : UploadState)
    (m : Measurement) : UploadState :=
  if dryRun then
    { st with succ := st.succ + 1, uploaded := st.uploaded ++ [recordKey m] }
  else if apiOk st.calls then
    { succ := st.succ + 1, fail := st.fail,
      uploaded := st.uploaded ++ [recordKey m], calls := st.calls + 1 }
  else
    { st with fail := st.fail + 1, calls := st.calls + 1 }

/-- `upload_measurements(api, df, tzinfo, dry_run=...)`, reduced to its
per-record counting loop. -/
def upload_measurements (apiOk : Nat → Bool) (ms : List Measurement)
    (dryRun : Bool) : UploadState :=
  ms.foldl (uploadStep apiOk dryRun) ⟨0, 0, [], 0⟩

theorem uploadLoop_counts (apiOk : Nat → Bool) (ms : List Measurement) :
    ∀ st : UploadState,
      ((ms.foldl (uploadStep apiOk false) st).succ
          + (ms.foldl (uploadStep apiOk false) st).fail
          = st.succ + st.fail + ms.length) ∧
      ((ms.foldl (uploadStep apiOk false) st).calls = st.calls + ms.length) ∧
      ((ms.foldl (uploadStep apiOk false) st).uploaded.length
          + (ms.foldl (uploadStep apiOk false) st).fail
          = st.uploaded.length + st.fail + ms.length) := by
  induction ms with
  | nil => intro st; simp
  | cons m ms ih =>
    intro st
    rw [List.foldl_cons]
    obtain ⟨ha, hb, hc⟩ := ih (uploadStep apiOk false st m)
    by_cases h : apiOk st.calls
    · simp [uploadStep, h] at ha hb hc ⊢
      exact ⟨by omega, by omega, by omega⟩
    · simp [uploadStep, h] at ha hb hc ⊢
      exact ⟨by omega, by omega, by omega⟩

/-! ### `load_weight_rows` -/

/-- One raw CSV row after the per-cell parsers ran (the permissive
`dateutil` parsers are external collaborators; a row carries their
results).  `combined` is `_parse_datetime(row.get(datetime_col))` — `none`
both when the file has no combined column and when parsing fails, which
the loop treats identically; `dOpt` likewise for `_parse_date` on the date
column; `t` is the time used by the separate-columns branch (`_parse_time`
is total, returning midnight on blank or unparseable input, and the loop
defaults to midnight when no time column exists); `wOpt` is
`_parse_float` on the weight cell, in fixed-point thousandths of a
kilogram (so the loop's `round(float(weight), 3)` is the identity). -/
structure RawRow where
  combined : Option (Date × Time)
  dOpt : Option Date
  t : Time
  wOpt : Option Int
deriving DecidableEq

/-- One iteration of the `load_weight_rows` row loop: prefer the combined
datetime, zeroing its microseconds; else fall back to the separate date
and time columns; drop the row when no date resolves or when the weight is
missing or non-positive. -/
def processRow (r : RawRow) : Option Measurement :=
  let dt : Option (Date × Time) :=
    match r.combined with
    | some (d, t) => some (d, { t with micro := 0 })
    | none =>
      match r.dOpt with
      | some d => some (d, r.t)
      | none => none
  match dt with
  | none => none
  | some (d, t) =>
    match r.wOpt with
    | none => none
    | some w => if w ≤ 0 then none else some ⟨d, t, w.toNat⟩

/-- Numeric code of a record's (date, time) pair, lexicographic for
in-range field values: pandas `sort_values(["date", "time"])` compares the
date and the full time object (microseconds included). -/
def instantCode (m : Measurement) : Nat :=
  dateCode m.date.year m.date.month m.date.day * 86400000000
    + ((m.time.hour * 60 + m.time.minute) * 60 + m.time.second) * 1000000
    + m.time.micro

/-- The comparison `sort_values(["date", "time"])` orders by. -/
def instantLe (a b : Measurement) : Prop :=
  instantCode a ≤ instantCode b

instance : DecidableRel instantLe := fun _ _ => Nat.decLe _ _

instance : IsTotal Measurement instantLe := ⟨fun _ _ => Nat.le_total _ _⟩

instance : IsTrans Measurement instantLe := ⟨fun _ _ _ => Nat.le_trans⟩

/-- A CSV file after column resolution: which canonical columns resolved,
plus the parse results of its rows. -/
structure CsvFile where
  hasDateCol : Bool
  hasDatetimeCol : Bool
  hasWeightCol : Bool
  rows : List RawRow

/-- `load_weight_rows(csv_path)`: reject the file when neither a date nor
a combined-datetime column resolves or no weight column resolves; process
the rows, silently skipping invalid ones; reject the file when no valid
row remains; otherwise sort by (date, time) ascending — the multi-column
pandas sort is the stable lexsort, modelled by a stable insertion sort. -/
def load_weight_rows (f : CsvFile) : Except String (List Measurement) :=
  if !f.hasDateCol && !f.hasDatetimeCol then
    .error "CSV에 날짜 또는 전체 일시(KST) 컬럼이 없습니다."
  else if !f.hasWeightCol then
    .error "CSV에 몸무게 또는 weight 컬럼이 없습니다."
  else if (f.rows.filterMap processRow).isEmpty then
    .error "유효한(>0) 몸무게 값이 없습니다."
  else
    .ok (List.insertionSort instantLe (f.rows.filterMap processRow))

theorem filter_orderedInsert (a : Measurement) (l : List Measurement) (c : Nat) :
    (List.orderedInsert instantLe a l).filter (fun m => instantCode m = c)
      = ((a :: l).filter (fun m => instantCode m = c)) := by
  induction l with
  | nil => rfl
  | cons b m ih =>
    by_cases hab : instantLe a b
    · simp [List.orderedInsert, hab]
    · have hlt : instantCode b < instantCode a := by
        simp only [instantLe, not_le] at hab
        exact hab
      simp only [List.orderedInsert, if_neg hab]
      by_cases hbc : instantCode b = c
      · have hac : ¬ instantCode a = c := by omega
        simp [List.filter_cons, hbc, hac, ih]
      · by_cases hac : instantCode a = c
        · simp [List.filter_cons, hbc, hac, ih]
        · simp [List.filter_cons, hbc, hac, ih]

theorem filter_insertionSort (l : List Measurement) (c : Nat) :
    (List.insertionSort instantLe l).filter (fun m => instantCode m = c)
      = l.filter (fun m => instantCode m = c) := by
  induction l with
  | nil => rfl
  | cons a l ih =>
    simp only [List.insertionSort]
    rw [filter_orderedInsert a (List.insertionSort instantLe l) c]
    simp [List.filter_cons, ih]

/-- C1 (counterexample): the deduplication key does not use minute
granularity — two times in the same minute that differ only in their
seconds produce different keys. -/
theorem claim_c1_counterexample :
    truncMinute ⟨7, 30, 45, 0⟩ = truncMinute ⟨7, 30, 0, 0⟩ ∧
    measurement_key ⟨2024, 1, 1⟩ ⟨7, 30, 45, 0⟩ 70500
      ≠ measurement_key ⟨2024, 1, 1⟩ ⟨7, 30, 0, 0⟩ 70500 := by
  exact ⟨rfl, by decide⟩

/-- C1 (amended): for every measurement the key depends only on the
instant truncated to the *second* (microseconds discarded) and the weight
at the fixed 3-decimal precision, and the key string has the form
`<ISO date>T<HH:MM:SS>|<weight with 3 decimal places>`; recomputing from
the same fields yields an identical key. -/
theorem claim_c1_key_second_precision (d : Date) (t t' : Time) (w : Nat)
    (hh : t.hour = t'.hour) (hm : t.minute = t'.minute) (hs : t.second = t'.second) :
    measurement_key d t w = measurement_key d t' w ∧
    measurement_key d t w
      = dateIso d ++ "T" ++ (pad2 t.hour ++ ":" ++ pad2 t.minute ++ ":" ++ pad2 t.second)
        ++ "|" ++ (toString (w / 1000) ++ "." ++ pad3 (w % 1000)) := by
  unfold measurement_key timeHMS formatWeight3
  rw [hh, hm, hs]
  exact ⟨rfl, by simp [String.append_assoc]⟩

/-- C1 witness: the amended theorem applied at a concrete measurement
whose microsecond field differs. -/
theorem claim_c1_witness :
    measurement_key ⟨2024, 1, 1⟩ ⟨7, 30, 45, 123456⟩ 70500
      = measurement_key ⟨2024, 1, 1⟩ ⟨7, 30, 45, 0⟩ 70500 :=
  (claim_c1_key_second_precision ⟨2024, 1, 1⟩ ⟨7, 30, 45, 123456⟩ ⟨7, 30, 45, 0⟩
    70500 rfl rfl rfl).1

/-- C2: in-batch deduplication outputs exactly one record per distinct
key — for each key precisely the first occurrence in input order is kept
(the output is a sublist of the input), the output length equals the
number of distinct keys, and no two output records share a key. -/
theorem claim_c2_dedup_first_occurrence (B : List Measurement) :
    (deduplicate_measurements B).length = (B.map recordKey).toFinset.card ∧
    ((deduplicate_measurements B).map recordKey).Nodup ∧
    (∀ k : String, (deduplicate_measurements B).filter (fun m => recordKey m = k)
        = (B.filter (fun m => recordKey m = k)).take 1) ∧
    (deduplicate_measurements B).Sublist B := by
  refine ⟨?_, (dedupLoop_keys_nodup B []).1, ?_, dedupLoop_sublist B []⟩
  · simpa using dedupLoop_length B []
  · intro k; simpa using dedupLoop_filter k B []

/-- C3: `filter_new_entries` returns exactly the records whose key is
absent from the uploaded-key set, in input order, and the skipped count is
the number of removed records. -/
theorem claim_c3_filter_new (B : List Measurement) (S : List String) :
    (filter_new_entries B S).1 = B.filter (fun m => recordKey m ∉ S) ∧
    (filter_new_entries B S).2 = B.countP (fun m => recordKey m ∈ S) := by
  unfold filter_new_entries
  by_cases hS : S.isEmpty
  · have hnil : S = [] := by simpa using hS
    subst hnil
    simp
  · rw [if_neg hS]
    exact filterNewLoop_spec B S

/-- C4 (counterexample): with duplicates in the input, or with a zero
limit, `prune_state_keys` does not return exactly `limit` keys even though
the input length exceeds the limit. -/
theorem claim_c4_counterexample :
    (["x", "x", "x"] : List String).length > 2 ∧
    (prune_state_keys ["x", "x", "x"] 2).length = 1 ∧
    (["2024-01-01T08:00:00|70.100", "2024-01-02T08:00:00|70.200"] :
        List String).length > 0 ∧
    (prune_state_keys
      ["2024-01-01T08:00:00|70.100", "2024-01-02T08:00:00|70.200"] 0).length = 2 := by
  decide

/-- C4 (amended): when the input holds more than `limit ≥ 1` *distinct
nonempty* keys, `prune_state_keys` returns exactly `limit` keys in
ascending order of embedded instant, and every discarded nonempty key is
chronologically no newer than every kept key (an unparseable instant gets
the minimal sort code, so it sorts first and is evicted first). -/
theorem claim_c4_prune_eviction (keys : List String) (limit : Nat)
    (hl : 1 ≤ limit)
    (hcount : limit < ((keys.filter (fun s => s ≠ "")).dedup).length) :
    (prune_state_keys keys limit).length = limit ∧
    List.Sorted keyLe (prune_state_keys keys limit) ∧
    ∀ b ∈ keys, b ≠ "" → b ∉ prune_state_keys keys limit →
      ∀ a ∈ prune_state_keys keys limit, sortKeyOf b ≤ sortKeyOf a := by
  have hlen : (pruneSorted keys).length
      = ((keys.filter (fun s => s ≠ "")).dedup).length :=
    (List.perm_insertionSort keyLe _).length_eq
  have hgt : (pruneSorted keys).length > limit := by omega
  have hne : limit ≠ 0 := by omega
  have heq : prune_state_keys keys limit
      = (pruneSorted keys).drop ((pruneSorted keys).length - limit) := by
    unfold prune_state_keys pruneSorted at *
    simp only [if_pos hgt, if_neg hne]
  refine ⟨?_, ?_, ?_⟩
  · rw [heq, List.length_drop]
    omega
  · rw [heq]
    exact (pruneSorted_sorted keys).sublist (List.drop_sublist _ _)
  · intro b hb hbne hbout a ha
    rw [heq] at hbout ha
    have hbmem : b ∈ pruneSorted keys := mem_pruneSorted hb hbne
    have hsplit := List.take_append_drop ((pruneSorted keys).length - limit)
      (pruneSorted keys)
    have hbtake : b ∈ (pruneSorted keys).take ((pruneSorted keys).length - limit) := by
      rcases List.mem_append.mp (by rw [hsplit]; exact hbmem) with h | h
      · exact h
      · exact absurd h hbout
    have hsorted : List.Pairwise keyLe
        ((pruneSorted keys).take ((pruneSorted keys).length - limit) ++
          (pruneSorted keys).drop ((pruneSorted keys).length - limit)) := by
      rw [hsplit]
      exact pruneSorted_sorted keys
    exact (List.pairwise_append.mp hsorted).2.2 b hbtake a ha

/-- C4 witness: the amended theorem applied to three distinct dated keys
with limit 2. -/
theorem claim_c4_witness :
    (prune_state_keys
      ["2024-01-03T08:00:00|70.300", "2024-01-01T08:00:00|70.100",
        "2024-01-02T08:00:00|70.200"] 2).length = 2 :=
  (claim_c4_prune_eviction _ 2 (by decide) (by decide)).1

/-- C10: pruning discards empty keys and collapses duplicate key strings
before applying the size limit — the output is duplicate-free, ascending
by embedded instant, and contains only nonempty input keys; in particular
an input over the limit only through duplicates returns fewer than `limit`
keys. -/
theorem claim_c10_prune_dedups_first :
    (∀ (keys : List String) (limit : Nat),
        (prune_state_keys keys limit).Nodup ∧
        List.Sorted keyLe (prune_state_keys keys limit) ∧
        ∀ k ∈ prune_state_keys keys limit, k ≠ "" ∧ k ∈ keys) ∧
    ((["y", "y", "y"] : List String).length > 2 ∧
      (prune_state_keys ["y", "y", "y"] 2).length < 2) := by
  constructor
  · intro keys limit
    obtain ⟨n, hn⟩ := prune_eq_drop keys limit
    refine ⟨?_, ?_, ?_⟩
    · rw [hn]
      exact (pruneSorted_nodup keys).sublist (List.drop_sublist _ _)
    · rw [hn]
      exact (pruneSorted_sorted keys).sublist (List.drop_sublist _ _)
    · intro k hk
      rw [hn] at hk
      exact pruneSorted_mem ((List.drop_sublist _ _).mem hk)
  · exact ⟨by decide, by decide⟩

/-- C5: loading the upload state never fails fatally — a missing state
file yields the empty key set with no warning, and a malformed
(non-JSON-decodable) state file yields the empty key set plus a warning;
the loader is a total function, so the run continues in both cases. -/
theorem claim_c5_load_state_nonfatal :
    load_uploaded_keys .missing = ([], false) ∧
    load_uploaded_keys .malformed = ([], true) :=
  ⟨rfl, rfl⟩

/-- C6 (counterexample): the concrete save trace contains no rename at
all and writes the final path directly, so the save is not atomic in the
spec's temp-file-plus-rename sense. -/
theorem claim_c6_counterexample :
    ¬ atomicWriteSpec "state.json"
      (save_uploaded_keys "2024-01-01T00:00:00+00:00" "dir" "state.json" ["k"]) := by
  intro h
  obtain ⟨-, tmp, -, hmem⟩ := h
  simp [save_uploaded_keys] at hmem

/-- C6 (amended): saving ensures the parent directory exists before any
write, then writes the whole payload in a single direct write to the
final path — no temp file and no rename, so a crash mid-write can leave a
partial file. -/
theorem claim_c6_save_direct_write (savedAt parentDir filePath : String)
    (keys : List String) :
    ∃ content,
      save_uploaded_keys savedAt parentDir filePath keys
        = [FsOp.mkdirParents parentDir, FsOp.writeText filePath content] ∧
      ∀ src dst, FsOp.renameFile src dst ∉ save_uploaded_keys savedAt parentDir filePath keys :=
  ⟨_, rfl, by intro src dst; simp [save_uploaded_keys]⟩

/-- C7 (counterexample): with an API that fails its first call but would
succeed on any later one, the single record is counted as failed after
exactly one attempt — there is no retry, no backoff, and no 3–4 attempt
ceiling before counting the failure. -/
theorem claim_c7_counterexample :
    upload_measurements (fun i => decide (1 ≤ i))
        [⟨⟨2024, 1, 1⟩, ⟨7, 30, 0, 0⟩, 70500⟩] false
      = ⟨0, 1, [], 1⟩ ∧
    (fun i => decide (1 ≤ i)) 1 = true ∧ (1 : Nat) < 3 :=
  ⟨rfl, rfl, by decide⟩

/-- C7 (amended): every record gets exactly one upload attempt — over any
batch the number of API calls equals the number of records, each record is
counted exactly once as success or failure (so one record's failure never
aborts the batch), and the uploaded-key list gains one key per success. -/
theorem claim_c7_single_attempt (apiOk : Nat → Bool) (ms : List Measurement) :
    (upload_measurements apiOk ms false).succ
        + (upload_measurements apiOk ms false).fail = ms.length ∧
    (upload_measurements apiOk ms false).calls = ms.length ∧
    (upload_measurements apiOk ms false).uploaded.length
        = (upload_measurements apiOk ms false).succ := by
  obtain ⟨ha, hb, hc⟩ := uploadLoop_counts apiOk ms ⟨0, 0, [], 0⟩
  unfold upload_measurements
  simp at ha hb hc
  exact ⟨by omega, by omega, by omega⟩

/-- C8: whenever `load_weight_rows` succeeds, its output is sorted by
instant ascending, and rows whose instants compare equal keep their
original source-row order (the sort is stable): filtering the output at
any instant code gives exactly the valid rows of the input at that code,
in input order. -/
theorem claim_c8_sorted_stable (f : CsvFile) (out : List Measurement)
    (h : load_weight_rows f = .ok out) :
    List.Sorted instantLe out ∧
    ∀ c : Nat, out.filter (fun m => instantCode m = c)
      = (f.rows.filterMap processRow).filter (fun m => instantCode m = c) := by
  unfold load_weight_rows at h
  split at h
  · exact Except.noConfusion h
  · split at h
    · exact Except.noConfusion h
    · split at h
      · exact Except.noConfusion h
      · have hout : List.insertionSort instantLe (f.rows.filterMap processRow) = out :=
          Except.ok.inj h
        subst hout
        exact ⟨List.sorted_insertionSort instantLe _,
          fun c => filter_insertionSort (f.rows.filterMap processRow) c⟩

/-- C8 witness: the theorem applied to a concrete two-row file given in
reverse chronological order. -/
theorem claim_c8_witness :
    List.Sorted instantLe
      (List.insertionSort instantLe
        ([(⟨none, some ⟨2024, 1, 2⟩, ⟨8, 0, 0, 0⟩, some 70400⟩ : RawRow),
          ⟨none, some ⟨2024, 1, 1⟩, ⟨7, 30, 0, 0⟩, some 70500⟩].filterMap processRow)) :=
  (claim_c8_sorted_stable
    ⟨true, false, true,
      [⟨none, some ⟨2024, 1, 2⟩, ⟨8, 0, 0, 0⟩, some 70400⟩,
        ⟨none, some ⟨2024, 1, 1⟩, ⟨7, 30, 0, 0⟩, some 70500⟩]⟩
    (List.insertionSort instantLe
      ([(⟨none, some ⟨2024, 1, 2⟩, ⟨8, 0, 0, 0⟩, some 70400⟩ : RawRow),
        ⟨none, some ⟨2024, 1, 1⟩, ⟨7, 30, 0, 0⟩, some 70500⟩].filterMap processRow))
    rfl).1

/-- C9: when a file resolves its required columns, `load_weight_rows`
raises `ValueError` exactly when no row yields both a date and a strictly
positive weight (instead of returning an empty sequence); when at least
one valid row exists, invalid rows are skipped silently and exactly the
valid rows are returned. -/
theorem claim_c9_no_valid_rows_fatal (f : CsvFile)
    (hW : f.hasWeightCol = true)
    (hD : (f.hasDateCol || f.hasDatetimeCol) = true) :
    (f.rows.filterMap processRow = [] →
      load_weight_rows f = .error "유효한(>0) 몸무게 값이 없습니다.") ∧
    (f.rows.filterMap processRow ≠ [] →
      load_weight_rows f
        = .ok (List.insertionSort instantLe (f.rows.filterMap processRow))) := by
  have h1 : (!f.hasDateCol && !f.hasDatetimeCol) = false := by
    cases hd : f.hasDateCol <;> cases hdt : f.hasDatetimeCol <;> simp_all
  constructor
  · intro hnil
    unfold load_weight_rows
    simp [h1, hW, hnil]
  · intro hne
    unfold load_weight_rows
    simp [h1, hW, hne]

/-- C9 witness: the theorem applied to a file with one invalid row
(weight 0) and one valid row; the invalid row is skipped silently. -/
theorem claim_c9_witness :
    load_weight_rows
      ⟨true, false, true,
        [⟨none, some ⟨2024, 1, 1⟩, ⟨7, 30, 0, 0⟩, some 0⟩,
          ⟨none, some ⟨2024, 1, 1⟩, ⟨8, 0, 0, 0⟩, some 70100⟩]⟩
      = .ok (List.insertionSort instantLe
          ([(⟨none, some ⟨2024, 1, 1⟩, ⟨7, 30, 0, 0⟩, some 0⟩ : RawRow),
            ⟨none, some ⟨2024, 1, 1⟩, ⟨8, 0, 0, 0⟩, some 70100⟩].filterMap processRow)) :=
  (claim_c9_no_valid_rows_fatal
    ⟨true, false, true,
      [⟨none, some ⟨2024, 1, 1⟩, ⟨7, 30, 0, 0⟩, some 0⟩,
        ⟨none, some ⟨2024, 1, 1⟩, ⟨8, 0, 0, 0⟩, some 70100⟩]⟩
    rfl rfl).2 (by decide)

end GarminWeightUploader
